import Mathlib

/-!
Verification development for the NER sequence-labeling notebook
(`Exercise 2.1.ipynb`): BIO chunk evaluation, precision/recall/F1,
the per-word scoring model, batching/prediction, and the training loop.

Numeric scores are modelled over `ℚ`.  Components of `ner_util` that are
not part of the repository (vocabulary, batcher, BIO evaluator, `prf`)
are modelled from the specification and marked as such.
-/

namespace NER

/-- A BIO tag: outside, begin-TYPE, or inside-TYPE. -/
inductive BioLabel where
  | O : BioLabel
  | B : String → BioLabel
  | I : String → BioLabel
deriving DecidableEq, Repr

/-- A chunk: half-open token span `[start, stop)` together with its entity type. -/
abbrev Chunk := Nat × Nat × String

/-- Shift a chunk's span by `c` positions. -/
def shiftChunk (c : Nat) (ch : Chunk) : Chunk := (ch.1 + c, ch.2.1 + c, ch.2.2)

/-- Modelled from the spec: the BIO chunk-extraction scan of `ner_util`
(not in the repository).  "A chunk begins at a B-TYPE label or an I-TYPE
label whose predecessor is not the same type's B/I, and ends immediately
before the next non-continuing position."  `i` is the current position and
`cur` the open chunk (start position and type), if any. -/
def chunksAux : Nat → Option (Nat × String) → List BioLabel → List Chunk
  | i, some (s, t), [] => [(s, i, t)]
  | _, none, [] => []
  | i, some (s, t), .O :: rest => (s, i, t) :: chunksAux (i+1) none rest
  | i, none, .O :: rest => chunksAux (i+1) none rest
  | i, some (s, t), .B ty :: rest => (s, i, t) :: chunksAux (i+1) (some (i, ty)) rest
  | i, none, .B ty :: rest => chunksAux (i+1) (some (i, ty)) rest
  | i, some (s, t), .I ty :: rest =>
      if ty = t then chunksAux (i+1) (some (s, t)) rest
      else (s, i, t) :: chunksAux (i+1) (some (i, ty)) rest
  | i, none, .I ty :: rest => chunksAux (i+1) (some (i, ty)) rest

/-- All BIO chunks of a label sequence. -/
def chunks (ls : List BioLabel) : List Chunk := chunksAux 0 none ls

/-- Length of the maximal prefix of `I t` labels (the continuation run of an
open chunk of type `t`). -/
def runLen (t : String) : List BioLabel → Nat
  | .I ty :: rest => if ty = t then runLen t rest + 1 else 0
  | _ => 0

/-- `canonicalFrom cur ls`: `ls` is a well-formed BIO continuation given that
`cur` is the type of the currently open chunk (`none` if no chunk is open).
Every `I-TYPE` must continue a same-type chunk. -/
def canonicalFrom : Option String → List BioLabel → Bool
  | _, [] => true
  | _, .O :: rest => canonicalFrom none rest
  | _, .B t :: rest => canonicalFrom (some t) rest
  | some t, .I ty :: rest => ty = t && canonicalFrom (some t) rest
  | none, .I _ :: _ => false

/-- A canonical BIO sequence: every `I-TYPE` label continues a chunk of the
same type (it is preceded by `B-TYPE` or `I-TYPE`). -/
def canonical (ls : List BioLabel) : Bool := canonicalFrom none ls

/-- The per-token labels of one chunk of type `t` and length `len`:
`B t` followed by `len - 1` copies of `I t`. -/
def chunkLabels (t : String) : Nat → List BioLabel
  | 0 => []
  | k + 1 => .B t :: List.replicate k (.I t)

/-- Re-serialize a (sorted, disjoint) chunk list back to per-token labels:
`O` up to the next chunk start, the chunk's `B`/`I` labels, and so on;
`n` is the total number of tokens and `i` the current position. -/
def serializeAux : Nat → Nat → List Chunk → List BioLabel
  | n, i, [] => List.replicate (n - i) .O
  | n, i, (s, e, t) :: cs =>
      List.replicate (s - i) .O ++ chunkLabels t (e - s) ++ serializeAux n e cs

/-- Re-serialize a chunk list to a label sequence of `n` tokens. -/
def serializeTo (n : Nat) (cs : List Chunk) : List BioLabel := serializeAux n 0 cs

-- sanity checks on concrete sequences
example : chunks [.B "PER", .I "PER", .O] = [(0, 2, "PER")] := by decide
example : chunks [.B "PER", .O, .O] = [(0, 1, "PER")] := by decide
example : chunks [.I "PER"] = [(0, 1, "PER")] := by decide
example : serializeTo 3 [(0, 2, "PER")] = [.B "PER", .I "PER", .O] := by decide
example : serializeTo 1 (chunks [.I "PER"]) = [.B "PER"] := by decide

/-- Closing scan of an open chunk `(s, t)`: the open chunk ends after its
continuation run, and scanning resumes with no open chunk. -/
theorem chunksAux_open (rest : List BioLabel) :
    ∀ (i s : Nat) (t : String),
      chunksAux i (some (s, t)) rest =
        (s, i + runLen t rest, t) ::
          chunksAux (i + runLen t rest) none (rest.drop (runLen t rest)) := by
  induction rest with
  | nil => intro i s t; simp [chunksAux, runLen]
  | cons l rest ih =>
    intro i s t
    cases l with
    | O => simp [chunksAux, runLen]
    | B ty => simp [chunksAux, runLen]
    | I ty =>
      by_cases h : ty = t
      · subst h
        simp only [chunksAux, runLen, if_pos rfl]
        rw [ih (i+1) s ty]
        have harith : i + 1 + runLen ty rest = i + (runLen ty rest + 1) := by omega
        simp [harith]
      · simp [chunksAux, runLen, h]

/-- Scanning from offset `i` with no open chunk shifts every chunk by `i`. -/
theorem chunksAux_shift (n : Nat) :
    ∀ (ls : List BioLabel), ls.length ≤ n → ∀ (i : Nat),
      chunksAux i none ls = (chunks ls).map (shiftChunk i) := by
  induction n with
  | zero =>
    intro ls hlen i
    have : ls = [] := List.length_eq_zero.mp (Nat.le_zero.mp hlen)
    subst this
    simp [chunksAux, chunks]
  | succ n ih =>
    intro ls hlen i
    cases ls with
    | nil => simp [chunksAux, chunks]
    | cons l rest =>
      have hrest : rest.length ≤ n := by
        simpa [List.length_cons, Nat.succ_le_succ_iff] using hlen
      cases l with
      | O =>
        simp only [chunksAux, chunks]
        rw [ih rest hrest (i+1), ih rest hrest 1, List.map_map]
        apply List.map_congr_left
        intro c _
        simp [shiftChunk, Function.comp]
        omega
      | B ty =>
        simp only [chunks, chunksAux]
        rw [chunksAux_open rest (i+1) i ty, chunksAux_open rest 1 0 ty]
        have hdrop : (rest.drop (runLen ty rest)).length ≤ n := by
          have := List.length_drop (runLen ty rest) rest
          omega
        rw [ih _ hdrop (i + 1 + runLen ty rest), ih _ hdrop (1 + runLen ty rest)]
        simp only [List.map_cons, List.map_map, shiftChunk]
        refine congrArg₂ List.cons ?_ ?_
        · simp only [Prod.mk.injEq]
          exact ⟨by omega, by omega, trivial⟩
        · apply List.map_congr_left
          intro c _
          simp [shiftChunk, Function.comp]
          omega
      | I ty =>
        simp only [chunks, chunksAux]
        rw [chunksAux_open rest (i+1) i ty, chunksAux_open rest 1 0 ty]
        have hdrop : (rest.drop (runLen ty rest)).length ≤ n := by
          have := List.length_drop (runLen ty rest) rest
          omega
        rw [ih _ hdrop (i + 1 + runLen ty rest), ih _ hdrop (1 + runLen ty rest)]
        simp only [List.map_cons, List.map_map, shiftChunk]
        refine congrArg₂ List.cons ?_ ?_
        · simp only [Prod.mk.injEq]
          exact ⟨by omega, by omega, trivial⟩
        · apply List.map_congr_left
          intro c _
          simp [shiftChunk, Function.comp]
          omega

/-- Re-serializing shifted chunks from a shifted position is re-serializing
the original chunks. -/
theorem serializeAux_shift (cs : List Chunk) :
    ∀ (n i c : Nat),
      serializeAux (n + c) (i + c) (cs.map (shiftChunk c)) = serializeAux n i cs := by
  induction cs with
  | nil =>
    intro n i c
    simp only [List.map_nil, serializeAux]
    congr 1
    omega
  | cons ch cs ih =>
    intro n i c
    obtain ⟨s, e, t⟩ := ch
    simp only [List.map_cons, shiftChunk, serializeAux]
    have h1 : s + c - (i + c) = s - i := by omega
    have h2 : e + c - (s + c) = e - s := by omega
    rw [h1, h2, ih n e c]

/-- A chunk list whose spans all start at position `1` or later, scanned from
position `0`, yields a leading `O`. -/
theorem serializeAux_shift_one (cs : List Chunk) (n : Nat) :
    serializeAux (n + 1) 0 (cs.map (shiftChunk 1)) = .O :: serializeAux n 0 cs := by
  cases cs with
  | nil =>
    simp only [List.map_nil, serializeAux, Nat.sub_zero]
    rw [List.replicate_succ]
  | cons ch cs =>
    obtain ⟨s, e, t⟩ := ch
    simp only [List.map_cons, shiftChunk, serializeAux]
    have h1 : s + 1 - 0 = s + 1 := by omega
    have h2 : e + 1 - (s + 1) = e - s := by omega
    have h3 : serializeAux (n + 1) (e + 1) (cs.map (shiftChunk 1)) =
        serializeAux n e cs := serializeAux_shift cs n e 1
    rw [h1, h2, h3, List.replicate_succ]
    simp

/-- The continuation run is a prefix of `I t` labels. -/
theorem runLen_take (t : String) (ls : List BioLabel) :
    ls.take (runLen t ls) = List.replicate (runLen t ls) (.I t) := by
  induction ls with
  | nil => simp [runLen]
  | cons l rest ih =>
    cases l with
    | O => simp [runLen]
    | B ty => simp [runLen]
    | I ty =>
      by_cases h : ty = t
      · subst h
        simp [runLen, List.replicate_succ, ih]
      · simp [runLen, h]

/-- The continuation run is at most the whole sequence. -/
theorem runLen_le (t : String) (ls : List BioLabel) : runLen t ls ≤ ls.length := by
  induction ls with
  | nil => simp [runLen]
  | cons l rest ih =>
    cases l with
    | O => simp [runLen]
    | B ty => simp [runLen]
    | I ty =>
      by_cases h : ty = t
      · subst h; simp [runLen]; omega
      · simp [runLen, h]

/-- Dropping the continuation run of an open chunk from a canonical
continuation leaves a canonical sequence. -/
theorem canonicalFrom_drop (ls : List BioLabel) :
    ∀ (t : String), canonicalFrom (some t) ls = true →
      canonicalFrom none (ls.drop (runLen t ls)) = true := by
  induction ls with
  | nil => intro t _; simp [runLen, canonicalFrom]
  | cons l rest ih =>
    intro t h
    cases l with
    | O => simpa [runLen, canonicalFrom] using h
    | B ty => simpa [runLen, canonicalFrom] using h
    | I ty =>
      rw [canonicalFrom] at h
      rw [Bool.and_eq_true] at h
      obtain ⟨hty, hrest⟩ := h
      have hty' : ty = t := by simpa using hty
      subst hty'
      simp only [runLen, if_pos rfl, List.drop_succ_cons]
      exact ih ty hrest

/-- Chunk extraction followed by re-serialization is the identity on
canonical BIO sequences (helper, by strong induction on length). -/
theorem bio_roundtrip_aux (n : Nat) :
    ∀ (ls : List BioLabel), ls.length ≤ n → canonical ls = true →
      serializeTo ls.length (chunks ls) = ls := by
  induction n with
  | zero =>
    intro ls hlen _
    have : ls = [] := List.length_eq_zero.mp (Nat.le_zero.mp hlen)
    subst this
    rfl
  | succ n ih =>
    intro ls hlen hcan
    cases ls with
    | nil => rfl
    | cons l rest =>
      have hrest : rest.length ≤ n := by
        simpa [List.length_cons, Nat.succ_le_succ_iff] using hlen
      cases l with
      | O =>
        have hcr : canonical rest = true := by
          simpa [canonical, canonicalFrom] using hcan
        have hch : chunks (.O :: rest) = (chunks rest).map (shiftChunk 1) := by
          rw [chunks, chunksAux]
          exact chunksAux_shift rest.length rest le_rfl 1
        simp only [List.length_cons, hch, serializeTo]
        rw [serializeAux_shift_one]
        have hr := ih rest hrest hcr
        rw [serializeTo] at hr
        rw [hr]
      | B t =>
        have hcr : canonicalFrom (some t) rest = true := by
          simpa [canonical, canonicalFrom] using hcan
        have hk := runLen_le t rest
        set k := runLen t rest with hkdef
        have hch : chunks (.B t :: rest) =
            (0, 1 + k, t) ::
              ((chunks (rest.drop k)).map (shiftChunk (1 + k))) := by
          rw [chunks, chunksAux, chunksAux_open rest 1 0 t, ← hkdef]
          congr 1
          have hdlen : (rest.drop k).length ≤ rest.length := by
            simp [List.length_drop]
          exact chunksAux_shift (rest.drop k).length (rest.drop k) le_rfl (1 + k)
        rw [serializeTo, List.length_cons, hch, serializeAux]
        have h0 : (0 : Nat) - 0 = 0 := rfl
        have h1 : 1 + k - 0 = k + 1 := by omega
        rw [h0, h1]
        have hsh : serializeAux (rest.length + 1) (1 + k)
            ((chunks (rest.drop k)).map (shiftChunk (1 + k))) =
            serializeAux (rest.length - k) 0 (chunks (rest.drop k)) := by
          have harith : rest.length + 1 = (rest.length - k) + (1 + k) := by omega
          rw [harith]
          have := serializeAux_shift (chunks (rest.drop k)) (rest.length - k) 0 (1 + k)
          simpa using this
        rw [hsh]
        have hdrop_can : canonical (rest.drop k) = true := canonicalFrom_drop rest t hcr
        have hdlen : (rest.drop k).length ≤ n := by
          have : (rest.drop k).length ≤ rest.length := by simp [List.length_drop]
          omega
        have hrec := ih (rest.drop k) hdlen hdrop_can
        rw [serializeTo, List.length_drop] at hrec
        rw [hrec, chunkLabels]
        have hrepl : List.replicate k (BioLabel.I t) = rest.take k := (runLen_take t rest).symm
        rw [hrepl]
        simp [List.replicate, List.take_append_drop]
      | I t =>
        rw [canonical, canonicalFrom] at hcan
        exact absurd hcan (by simp)

/-- The chunks of a label sequence have strictly increasing start positions. -/
theorem chunks_pairwise (n : Nat) :
    ∀ (ls : List BioLabel), ls.length ≤ n →
      (chunks ls).Pairwise (fun a b : Chunk => a.1 < b.1) := by
  induction n with
  | zero =>
    intro ls hlen
    have : ls = [] := List.length_eq_zero.mp (Nat.le_zero.mp hlen)
    subst this
    simp [chunks, chunksAux]
  | succ n ih =>
    intro ls hlen
    cases ls with
    | nil => simp [chunks, chunksAux]
    | cons l rest =>
      have hrest : rest.length ≤ n := by
        simpa [List.length_cons, Nat.succ_le_succ_iff] using hlen
      have hopen : ∀ (t : String),
          (chunksAux 1 (some (0, t)) rest).Pairwise (fun a b : Chunk => a.1 < b.1) := by
        intro t
        rw [chunksAux_open rest 1 0 t]
        have hdlen : (rest.drop (runLen t rest)).length ≤ n := by
          have : (rest.drop (runLen t rest)).length ≤ rest.length := by
            simp [List.length_drop]
          omega
        rw [chunksAux_shift (rest.drop (runLen t rest)).length _ le_rfl]
        refine List.Pairwise.cons ?_ ?_
        · intro c hc
          rw [List.mem_map] at hc
          obtain ⟨c0, _, hc0⟩ := hc
          subst hc0
          simp [shiftChunk]
        · rw [List.pairwise_map]
          refine (ih _ hdlen).imp ?_
          intro a b hab
          simp only [shiftChunk]
          omega
      cases l with
      | O =>
        have hch : chunks (.O :: rest) = (chunks rest).map (shiftChunk 1) := by
          rw [chunks, chunksAux]
          exact chunksAux_shift rest.length rest le_rfl 1
        rw [hch, List.pairwise_map]
        refine (ih rest hrest).imp ?_
        intro a b hab
        simp only [shiftChunk]
        omega
      | B t =>
        rw [chunks, chunksAux]
        exact hopen t
      | I t =>
        rw [chunks, chunksAux]
        exact hopen t

/-- The chunk list of a label sequence has no duplicates. -/
theorem chunks_nodup (ls : List BioLabel) : (chunks ls).Nodup := by
  have h := chunks_pairwise ls.length ls le_rfl
  exact h.imp (fun hab => by
    intro hEq
    rw [hEq] at hab
    omega)

/-- Chunks of a given entity type. -/
def chunksOf (t : String) (ls : List BioLabel) : List Chunk :=
  (chunks ls).filter (fun c => decide (c.2.2 = t))

/-- Chunks of a type are a sublist of all chunks, hence duplicate-free. -/
theorem chunksOf_nodup (t : String) (ls : List BioLabel) : (chunksOf t ls).Nodup :=
  (chunks_nodup ls).filter _

/-- Evaluation counts for one entity type: true positives, false positives,
false negatives. -/
structure Counts where
  tp : Nat
  fp : Nat
  fn : Nat
deriving DecidableEq, Repr

/-- Boolean membership test for a chunk in a chunk list. -/
def chunkMem (c : Chunk) (cs : List Chunk) : Bool :=
  cs.any (fun c2 => decide (c2 = c))

/-- `chunkMem` decides list membership. -/
theorem chunkMem_iff (c : Chunk) (cs : List Chunk) :
    chunkMem c cs = true ↔ c ∈ cs := by
  simp [chunkMem, List.any_eq_true]

/-- Modelled from the spec: the chunk-matching rule of `ner_util.evaluate_iob`
(implementation not in the repository).  A predicted chunk is a true positive
exactly when a chunk with the identical `[start, stop)` span and entity type
occurs among the gold chunks; every unmatched predicted chunk is a false
positive and every unmatched gold chunk is a false negative. -/
def evalChunks (t : String) (pred gold : List BioLabel) : Counts :=
  { tp := ((chunksOf t pred).filter (fun c => chunkMem c (chunksOf t gold))).length
    fp := ((chunksOf t pred).filter (fun c => !(chunkMem c (chunksOf t gold)))).length
    fn := ((chunksOf t gold).filter (fun c => !(chunkMem c (chunksOf t pred)))).length }

/-- For duplicate-free chunk lists, the number of chunks of the first list
present in the second equals the number of chunks of the second present in
the first. -/
theorem length_filter_chunkMem_comm (l1 l2 : List Chunk)
    (h1 : l1.Nodup) (h2 : l2.Nodup) :
    (l1.filter (fun c => chunkMem c l2)).length =
      (l2.filter (fun c => chunkMem c l1)).length := by
  have key : ∀ (u v : List Chunk), u.Nodup →
      (u.filter (fun c => chunkMem c v)).length = (u.toFinset ∩ v.toFinset).card := by
    intro u v hu
    rw [← List.toFinset_card_of_nodup (hu.filter _)]
    congr 1
    ext a
    simp [List.mem_filter, Finset.mem_inter, chunkMem_iff]
  rw [key l1 l2 h1, key l2 l1 h2, Finset.inter_comm]

/-- A Boolean filter and its negation partition a list's length. -/
theorem length_filter_partition {α : Type} (l : List α) (p : α → Bool) :
    (l.filter p).length + (l.filter (fun a => !(p a))).length = l.length := by
  induction l with
  | nil => simp
  | cons a l ih =>
    cases h : p a <;> simp [List.filter_cons, h] <;> omega

/-- Modelled from the spec: `ner_util.prf` (implementation not in the
repository): precision is TP/(TP+FP), recall is TP/(TP+FN), F1 is their
harmonic mean, and each defaults to 0 when its denominator is 0. -/
def prf (c : Counts) : ℚ × ℚ × ℚ :=
  let p : ℚ := if c.tp + c.fp = 0 then 0 else (c.tp : ℚ) / ((c.tp : ℚ) + (c.fp : ℚ))
  let r : ℚ := if c.tp + c.fn = 0 then 0 else (c.tp : ℚ) / ((c.tp : ℚ) + (c.fn : ℚ))
  let f : ℚ := if p + r = 0 then 0 else 2 * p * r / (p + r)
  (p, r, f)

/-- C4: the precision/recall/F1 reduction returns 0 for precision when
TP+FP = 0 and 0 for recall when TP+FN = 0 (no division-by-zero error is
possible); in particular an all-zero counter reports precision 0 and
recall 0. -/
theorem prf_defaults_to_zero (c : Counts) :
    (c.tp + c.fp = 0 → (prf c).1 = 0) ∧
      (c.tp + c.fn = 0 → (prf c).2.1 = 0) ∧
      prf { tp := 0, fp := 0, fn := 0 } = (0, 0, 0) := by
  refine ⟨?_, ?_, by simp [prf]⟩
  · intro h
    simp [prf, h]
  · intro h
    simp [prf, h]

/-- Witness for C4 at the all-zero counter. -/
theorem prf_defaults_to_zero_witness :
    (prf { tp := 0, fp := 0, fn := 0 }).1 = 0 ∧
      (prf { tp := 0, fp := 0, fn := 0 }).2.1 = 0 :=
  ⟨(prf_defaults_to_zero { tp := 0, fp := 0, fn := 0 }).1 (by decide),
   (prf_defaults_to_zero { tp := 0, fp := 0, fn := 0 }).2.1 (by decide)⟩

/-- C3: the evaluator counts a chunk as a true positive only on an exact
span-and-type match, every predicted chunk is either a true or a false
positive, every gold chunk is either matched or a false negative, and on
gold `[B-PER, I-PER, O]` versus predicted `[B-PER, O, O]` it reports
TP = 0, FP = 1, FN = 1 for PER — no partial credit. -/
theorem evalChunks_exact_match_counts :
    (∀ (t : String) (pred gold : List BioLabel),
        (evalChunks t pred gold).tp + (evalChunks t pred gold).fp =
          (chunksOf t pred).length ∧
        (evalChunks t pred gold).tp + (evalChunks t pred gold).fn =
          (chunksOf t gold).length) ∧
      evalChunks "PER" [.B "PER", .O, .O] [.B "PER", .I "PER", .O] =
        { tp := 0, fp := 1, fn := 1 } := by
  constructor
  · intro t pred gold
    constructor
    · exact length_filter_partition (chunksOf t pred)
        (fun c => chunkMem c (chunksOf t gold))
    · rw [evalChunks]
      dsimp only
      rw [length_filter_chunkMem_comm (chunksOf t pred) (chunksOf t gold)
            (chunksOf_nodup t pred) (chunksOf_nodup t gold)]
      exact length_filter_partition (chunksOf t gold)
        (fun c => chunkMem c (chunksOf t pred))
  · decide

/-- C9 counterexample: chunk extraction followed by re-serialization does
not round-trip the non-canonical sequence `[I-PER]` (it returns
`[B-PER]`). -/
theorem bio_roundtrip_counterexample :
    ¬ (serializeTo (List.length [BioLabel.I "PER"])
        (chunks [BioLabel.I "PER"]) = [BioLabel.I "PER"]) := by
  decide

/-- C9 (amended): for every canonical BIO sequence (each I-TYPE label
continues a same-type chunk), extracting chunks and re-serializing them
yields the original sequence exactly. -/
theorem bio_roundtrip_canonical (ls : List BioLabel) (h : canonical ls = true) :
    serializeTo ls.length (chunks ls) = ls :=
  bio_roundtrip_aux ls.length ls le_rfl h

/-- Witness for C9 on a concrete canonical sequence. -/
theorem bio_roundtrip_canonical_witness :
    canonical [BioLabel.B "PER", BioLabel.I "PER", BioLabel.O, BioLabel.B "LOC"] = true ∧
      serializeTo 4 (chunks [BioLabel.B "PER", BioLabel.I "PER", BioLabel.O, BioLabel.B "LOC"]) =
        [BioLabel.B "PER", BioLabel.I "PER", BioLabel.O, BioLabel.B "LOC"] :=
  ⟨by decide, bio_roundtrip_canonical
      [BioLabel.B "PER", BioLabel.I "PER", BioLabel.O, BioLabel.B "LOC"] (by decide)⟩

/-! ## The scoring model (`SimpleSequenceModel`) -/

/-- Dot product over rational vectors. -/
def dotQ (xs ys : List ℚ) : ℚ := (List.zipWith (fun a b => a * b) xs ys).sum

/-- `nn.Linear`: a weight matrix (one row per output unit) and a bias
vector; applying it to `x` yields `W x + b`. -/
structure Linear where
  weight : List (List ℚ)
  bias : List ℚ

/-- Apply a linear layer to an input vector. -/
def Linear.apply (l : Linear) (x : List ℚ) : List ℚ :=
  List.zipWith (fun row b => dotQ row x + b) l.weight l.bias

/-- `nn.Embedding`: a table whose row `w` is the embedding of word id `w`. -/
structure Embedding where
  weight : List (List ℚ)

/-- Look up the embedding of a word id. -/
def Embedding.lookup (e : Embedding) (w : Nat) : List ℚ := e.weight.getD w []

/-- `SimpleSequenceModel`: a word embedding layer and a linear output unit. -/
structure SimpleSequenceModel where
  word_embedding : Embedding
  top_layer : Linear

/-- `SimpleSequenceModel.forward`: embed each word id of the
(n_sentences, n_words) batch independently and apply the linear
output layer at every position, giving scores of shape
(n_sentences, n_words, n_labels). -/
def SimpleSequenceModel.forward (m : SimpleSequenceModel)
    (words : List (List Nat)) : List (List (List ℚ)) :=
  words.map (fun sen =>
    sen.map (fun w => m.top_layer.apply (m.word_embedding.lookup w)))

/-- Running argmax scan: current index, best index so far, best value so
far. -/
def argmaxFrom : Nat → Nat → ℚ → List ℚ → Nat
  | _, bi, _, [] => bi
  | i, bi, bv, x :: rest =>
      if bv < x then argmaxFrom (i+1) i x rest else argmaxFrom (i+1) bi bv rest

/-- Index of the highest-scoring entry (first occurrence on ties), as
`scores.argmax(dim=2)` computes per position. -/
def argmaxIdx : List ℚ → Nat
  | [] => 0
  | x :: rest => argmaxFrom 1 0 x rest

/-! ## Batching (modelled from the spec) -/

/-- Consecutive groups of at most `k` elements in order: the minibatches a
`DataLoader` forms without shuffling. -/
def chunkList {α : Type} (k : Nat) : List α → List (List α)
  | [] => []
  | a :: rest => (a :: rest.take (k - 1)) :: chunkList k (rest.drop (k - 1))
  termination_by l => l.length
  decreasing_by simp [List.length_drop]; omega

/-- Concatenating the minibatches restores the dataset in order. -/
theorem chunkList_flatten {α : Type} (k : Nat) (n : Nat) :
    ∀ (l : List α), l.length ≤ n → (chunkList k l).flatten = l := by
  induction n with
  | zero =>
    intro l hlen
    have : l = [] := List.length_eq_zero.mp (Nat.le_zero.mp hlen)
    subst this
    simp [chunkList]
  | succ n ih =>
    intro l hlen
    cases l with
    | nil => simp [chunkList]
    | cons a rest =>
      have hdlen : (rest.drop (k - 1)).length ≤ n := by
        have h1 := List.length_drop (k - 1) rest
        have h2 : rest.length ≤ n := by
          simpa [List.length_cons, Nat.succ_le_succ_iff] using hlen
        omega
      rw [chunkList]
      simp only [List.flatten_cons, ih _ hdlen, List.cons_append]
      rw [List.take_append_drop]

/-- Batching commutes with mapping a function over the dataset. -/
theorem chunkList_map {α β : Type} (k : Nat) (f : α → β) (n : Nat) :
    ∀ (l : List α), l.length ≤ n →
      chunkList k (l.map f) = (chunkList k l).map (List.map f) := by
  induction n with
  | zero =>
    intro l hlen
    have : l = [] := List.length_eq_zero.mp (Nat.le_zero.mp hlen)
    subst this
    simp [chunkList]
  | succ n ih =>
    intro l hlen
    cases l with
    | nil => simp [chunkList]
    | cons a rest =>
      have hdlen : (rest.drop (k - 1)).length ≤ n := by
        have h1 := List.length_drop (k - 1) rest
        have h2 : rest.length ≤ n := by
          simpa [List.length_cons, Nat.succ_le_succ_iff] using hlen
        omega
      simp only [List.map_cons, chunkList]
      rw [← List.map_drop, ih _ hdlen, List.map_take]

/-- An element is bounded by the running maximum of its list. -/
theorem le_foldr_max (l : List Nat) : ∀ x ∈ l, x ≤ l.foldr max 0 := by
  induction l with
  | nil => intro x hx; cases hx
  | cons a l ih =>
    intro x hx
    rcases List.mem_cons.mp hx with h | h
    · subst h; exact le_max_left _ _
    · exact le_trans (ih x h) (le_max_right _ _)

/-- Modelled from the spec: the word/label collation of
`ner_util.SequenceBatcher` (implementation not in the repository).  Each
batch is a rectangular array of shape
(batch_size, max_sentence_length + 1): a leading pad slot followed by the
sentence, right-padded with the pad id to the batch's maximum length. -/
def padSentences (padId : Nat) (g : List (List Nat)) : List (List Nat) :=
  let maxLen := (g.map List.length).foldr max 0
  g.map (fun s => padId :: (s ++ List.replicate (maxLen - s.length) padId))

/-- Modelled from the spec: character collation of
`ner_util.SequenceBatcher` (implementation not in the repository): pads
each sentence to the batch's maximum sentence length and each word's
character sequence to the longest word in the batch. -/
def padChars (charPad : Nat) (g : List (List (List Nat))) : List (List (List Nat)) :=
  let maxLen := (g.map List.length).foldr max 0
  let maxWord := (g.map (fun sen => (sen.map List.length).foldr max 0)).foldr max 0
  g.map (fun sen =>
    (sen ++ List.replicate (maxLen - sen.length) []).map
      (fun w => w ++ List.replicate (maxWord - w.length) charPad))

/-- `ner_util.SequenceDataset`: encoded words, labels and characters of a
set of sentences, in corresponding order. -/
structure SequenceDataset where
  words : List (List Nat)
  labels : List (List Nat)
  chars : List (List (List Nat))

/-- One collated minibatch: padded word, label and character arrays. -/
structure CollatedBatch where
  Xwords : List (List Nat)
  Ybatch : List (List Nat)
  Xchars : List (List (List Nat))

/-- Collate one group of (words, labels, chars) examples into a padded
batch. -/
def collate (wordPad labelPad charPad : Nat)
    (g : List (List Nat × List Nat × List (List Nat))) : CollatedBatch :=
  { Xwords := padSentences wordPad (g.map (fun e => e.1))
    Ybatch := padSentences labelPad (g.map (fun e => e.2.1))
    Xchars := padChars charPad (g.map (fun e => e.2.2)) }

/-- The minibatches of a dataset: zip the fields example-wise, group into
batches of `k`, and collate each group. -/
def batchesOf (wordPad labelPad charPad k : Nat) (ds : SequenceDataset) :
    List CollatedBatch :=
  (chunkList k (ds.words.zip (ds.labels.zip ds.chars))).map
    (collate wordPad labelPad charPad)

/-! ## `SequenceLabeler.predict` -/

/-- The batch loop of `SequenceLabeler.predict`: starting from the current
model and the rows decoded so far, each iteration computes the scores of
its batch's word array with the current model, takes the per-position
argmax and appends the predicted rows.  The model is threaded through the
loop unchanged (no update step occurs). -/
def predictLoop (st : SimpleSequenceModel × List (List Nat))
    (batches : List CollatedBatch) : SimpleSequenceModel × List (List Nat) :=
  batches.foldl
    (fun acc b =>
      (acc.1, acc.2 ++ (acc.1.forward b.Xwords).map (fun sen => sen.map argmaxIdx)))
    st

/-- The batch loop never touches the model: the model after the loop is the
model before it. -/
theorem predictLoop_model (batches : List CollatedBatch) :
    ∀ (st : SimpleSequenceModel × List (List Nat)),
      (predictLoop st batches).1 = st.1 := by
  induction batches with
  | nil => intro st; rfl
  | cons b bs ih =>
    intro st
    rw [predictLoop, List.foldl_cons]
    exact ih _

/-- The rows the loop accumulates are the per-batch predicted rows, in
order. -/
theorem predictLoop_rows (batches : List CollatedBatch) :
    ∀ (m : SimpleSequenceModel) (out : List (List Nat)),
      (predictLoop (m, out) batches).2 =
        out ++ (batches.map (fun b =>
          (m.forward b.Xwords).map (fun sen => sen.map argmaxIdx))).flatten := by
  induction batches with
  | nil => intro m out; simp [predictLoop]
  | cons b bs ih =>
    intro m out
    rw [predictLoop, List.foldl_cons]
    rw [show (List.foldl _ _ bs : SimpleSequenceModel × List (List Nat)) =
      predictLoop (m, out ++ (m.forward b.Xwords).map (fun sen => sen.map argmaxIdx)) bs
      from rfl]
    rw [ih]
    simp [List.flatten_cons, List.append_assoc]

/-- The decoding of `SequenceLabeler.predict`: run the batch loop, then for
each predicted row drop the leading pad position (`pred_sen[1:]`), zip the
predicted ids against the corresponding input sentence
(`zip(tokens, pred_sen[1:])`) and map each id to its label string. -/
def decodeRows (m : SimpleSequenceModel) (itos : Nat → String)
    (sentences : List (List String)) (batches : List CollatedBatch) :
    List (List String) :=
  let rows := (predictLoop (m, []) batches).2
  List.zipWith
    (fun sen row => (sen.zip (row.drop 1)).map (fun p => itos p.2))
    sentences rows

/-- The vocabulary/configuration data `predict` reads: label id-to-string
and string-to-id maps, word and character encoders, pad ids and batch
size. -/
structure PredictConfig where
  itos : Nat → String
  enc : String → Nat
  charEnc : String → List Nat
  wordPad : Nat
  labelPad : Nat
  charPad : Nat
  batchSize : Nat

/-- `SequenceLabeler.predict`: encode the raw sentences, build placeholder
labels (`Ydummy`, the id-0 label at every position), batch the dataset
without shuffling, and decode one label-string sequence per sentence. -/
def SequenceLabeler.predict (m : SimpleSequenceModel) (cfg : PredictConfig)
    (sentences : List (List String)) : List (List String) :=
  let ds : SequenceDataset :=
    { words := sentences.map (List.map cfg.enc)
      labels := sentences.map (fun sen => List.replicate sen.length 0)
      chars := sentences.map (fun sen => sen.map cfg.charEnc) }
  decodeRows m cfg.itos sentences
    (batchesOf cfg.wordPad cfg.labelPad cfg.charPad cfg.batchSize ds)

/-- Every row a batch produces for a sentence has the length of the longest
sentence of its batch plus the leading pad slot, hence strictly more
positions than the sentence has tokens. -/
theorem group_rows_long (m : SimpleSequenceModel) (enc : String → Nat)
    (wordPad : Nat) (g : List (List String)) :
    List.Forall₂ (fun (sen : List String) (row : List Nat) => sen.length + 1 ≤ row.length)
      g ((m.forward (padSentences wordPad (g.map (List.map enc)))).map
          (fun sen => sen.map argmaxIdx)) := by
  simp only [SimpleSequenceModel.forward, padSentences, List.map_map]
  rw [List.forall₂_map_right_iff]
  rw [List.forall₂_same]
  intro sen hsen
  have hmem : (sen.map enc).length ∈ (g.map (List.map enc)).map List.length := by
    rw [List.mem_map]
    exact ⟨sen.map enc, List.mem_map.mpr ⟨sen, hsen, rfl⟩, rfl⟩
  have hle := le_foldr_max _ _ hmem
  simp only [Function.comp, List.length_map, List.length_cons, List.length_append,
    List.length_replicate]
  simp only [List.length_map] at hle
  omega

/-- Decoding each row against its sentence yields exactly one label string
per token, provided every row is longer than its sentence. -/
theorem decode_forall₂ (itos : Nat → String) {sens : List (List String)}
    {rows : List (List Nat)}
    (h : List.Forall₂ (fun (sen : List String) (row : List Nat) =>
          sen.length + 1 ≤ row.length) sens rows) :
    List.Forall₂ (fun (out sen : List String) => out.length = sen.length)
      (List.zipWith
        (fun sen row => (sen.zip (row.drop 1)).map (fun p => itos p.2))
        sens rows)
      sens := by
  induction h with
  | nil => simp
  | cons hab h ih =>
    rw [List.zipWith_cons_cons]
    refine List.forall₂_cons.mpr ⟨?_, ih⟩
    simp only [List.length_map, List.length_zip, List.length_drop]
    omega

/-- C1: `SequenceLabeler.predict` returns exactly one label-string sequence
per input sentence, in input order, and each returned sequence's length
equals the token count of its sentence (every batch carries a leading pad
slot, so `pred_sen[1:]` zipped against the token list never truncates). -/
theorem predict_one_sequence_per_sentence (m : SimpleSequenceModel)
    (cfg : PredictConfig) (sentences : List (List String)) :
    (SequenceLabeler.predict m cfg sentences).length = sentences.length ∧
    List.Forall₂ (fun (out sen : List String) => out.length = sen.length)
      (SequenceLabeler.predict m cfg sentences) sentences := by
  have key : List.Forall₂ (fun (out sen : List String) => out.length = sen.length)
      (SequenceLabeler.predict m cfg sentences) sentences := by
    rw [SequenceLabeler.predict, decodeRows, batchesOf]
    dsimp only
    rw [predictLoop_rows, List.nil_append]
    rw [List.zip_map', List.zip_map',
      chunkList_map cfg.batchSize _ sentences.length sentences le_rfl]
    simp only [List.map_map]
    apply decode_forall₂
    have houter : List.Forall₂
        (List.Forall₂ (fun (sen : List String) (row : List Nat) =>
          sen.length + 1 ≤ row.length))
        (chunkList cfg.batchSize sentences)
        ((chunkList cfg.batchSize sentences).map
          (fun g =>
            (m.forward ((collate cfg.wordPad cfg.labelPad cfg.charPad
              (g.map (fun sen =>
                (sen.map cfg.enc,
                  (List.replicate sen.length 0, sen.map cfg.charEnc))))).Xwords)).map
              (fun sen => sen.map argmaxIdx))) := by
      rw [List.forall₂_map_right_iff, List.forall₂_same]
      intro g _
      have hx : (collate cfg.wordPad cfg.labelPad cfg.charPad
          (g.map (fun sen =>
            (sen.map cfg.enc,
              (List.replicate sen.length 0, sen.map cfg.charEnc))))).Xwords =
          padSentences cfg.wordPad (g.map (List.map cfg.enc)) := by
        rw [collate]
        dsimp only
        rw [List.map_map]
        rfl
      rw [hx]
      exact group_rows_long m cfg.enc cfg.wordPad g
    have hflat := List.rel_flatten houter
    rw [chunkList_flatten cfg.batchSize sentences.length sentences le_rfl] at hflat
    exact hflat
  exact ⟨key.length_eq, key⟩

/-! ## Shape and locality of the per-word model -/

/-- `getD` with default `[]` commutes with mapping a list-valued function
that sends `[]` to `[]`. -/
theorem getD_map_lists {α β : Type} (f : α → β) (l : List (List α)) :
    ∀ (i : Nat), (l.map (List.map f)).getD i [] = (l.getD i []).map f := by
  induction l with
  | nil => intro i; simp
  | cons a l ih =>
    intro i
    cases i with
    | zero => simp [List.getD_cons_zero]
    | succ i => simp only [List.map_cons, List.getD_cons_succ]; exact ih i

/-- Entry (i, j) of the model output is the image of word id (i, j) alone. -/
theorem forward_entry (m : SimpleSequenceModel) (words : List (List Nat))
    (i j : Nat) :
    ((m.forward words).getD i [])[j]? =
      Option.map (fun w => m.top_layer.apply (m.word_embedding.lookup w))
        ((words.getD i [])[j]?) := by
  rw [SimpleSequenceModel.forward, getD_map_lists, List.getElem?_map]

/-- C6: the per-word model returns one score row per sentence and one score
vector per word position, each of size n_labels, and the scores at
position (i, j) depend on word id (i, j) only: any batch agreeing at
(i, j) yields the same score vector there. -/
theorem simple_model_shape_and_locality (m : SimpleSequenceModel)
    (nLabels : Nat)
    (hw : m.top_layer.weight.length = nLabels)
    (hb : m.top_layer.bias.length = nLabels)
    (words words' : List (List Nat)) (i j : Nat) :
    (m.forward words).length = words.length ∧
    ((m.forward words).getD i []).length = (words.getD i []).length ∧
    (∀ out, ((m.forward words).getD i [])[j]? = some out → out.length = nLabels) ∧
    ((words.getD i [])[j]? = (words'.getD i [])[j]? →
      ((m.forward words).getD i [])[j]? = ((m.forward words').getD i [])[j]?) := by
  refine ⟨?_, ?_, ?_, ?_⟩
  · rw [SimpleSequenceModel.forward, List.length_map]
  · rw [SimpleSequenceModel.forward, getD_map_lists, List.length_map]
  · intro out hout
    rw [forward_entry] at hout
    rcases hopt : (words.getD i [])[j]? with _ | w
    · rw [hopt] at hout; cases hout
    · rw [hopt] at hout
      have : m.top_layer.apply (m.word_embedding.lookup w) = out :=
        Option.some.inj hout
      rw [← this, Linear.apply, List.length_zipWith, hw, hb, min_self]
  · intro h
    rw [forward_entry, forward_entry, h]

/-- A tiny concrete model with two labels, used by witnesses. -/
def sampleModel : SimpleSequenceModel :=
  { word_embedding := { weight := [[1], [2], [3]] }
    top_layer := { weight := [[1], [-1]], bias := [0, 0] } }

/-- Witness for C6 on `sampleModel` and concrete word batches that agree at
position (0, 0). -/
theorem simple_model_shape_and_locality_witness :
    (sampleModel.forward [[0, 1]]).length = ([[0, 1]] : List (List Nat)).length ∧
    ((sampleModel.forward [[0, 1]]).getD 0 []).length =
      (([[0, 1]] : List (List Nat)).getD 0 []).length ∧
    (∀ out, ((sampleModel.forward [[0, 1]]).getD 0 [])[0]? = some out →
      out.length = 2) ∧
    ((([[0, 1]] : List (List Nat)).getD 0 [])[0]? =
        (([[0, 2], [1]] : List (List Nat)).getD 0 [])[0]? →
      ((sampleModel.forward [[0, 1]]).getD 0 [])[0]? =
        ((sampleModel.forward [[0, 2], [1]]).getD 0 [])[0]?) :=
  simple_model_shape_and_locality sampleModel 2 (by rfl) (by rfl)
    [[0, 1]] [[0, 2], [1]] 0 0

/-! ## Independence of predictions from labels and characters -/

/-- The first components of a zipped list are a prefix of the first list. -/
theorem map_fst_zip_min {α β : Type} :
    ∀ (l1 : List α) (l2 : List β),
      (l1.zip l2).map (fun e => e.1) = l1.take (min l1.length l2.length) := by
  intro l1
  induction l1 with
  | nil => intro l2; simp
  | cons a l1 ih =>
    intro l2
    cases l2 with
    | nil => simp
    | cons b l2 =>
      rw [List.zip_cons_cons, List.map_cons, ih, List.length_cons,
        List.length_cons, Nat.succ_min_succ, List.take_succ_cons]

/-- C10: the predicted label sequences depend only on the word ids: two
datasets with the same word sequences (and label/character fields of the
same example count, whatever their content — e.g. different placeholder
labels or different character batches) decode to identical predictions,
because the forward pass reads only the word batch. -/
theorem predict_ignores_labels_and_chars (m : SimpleSequenceModel)
    (itos : Nat → String) (sentences : List (List String))
    (wordPad labelPad charPad k : Nat) (ds1 ds2 : SequenceDataset)
    (hw : ds1.words = ds2.words)
    (hl : ds1.labels.length = ds2.labels.length)
    (hc : ds1.chars.length = ds2.chars.length) :
    decodeRows m itos sentences (batchesOf wordPad labelPad charPad k ds1) =
      decodeRows m itos sentences (batchesOf wordPad labelPad charPad k ds2) := by
  have hrows : ∀ ds : SequenceDataset,
      ((batchesOf wordPad labelPad charPad k ds).map (fun b =>
        (m.forward b.Xwords).map (fun sen => sen.map argmaxIdx))) =
      (chunkList k ((ds.words.zip (ds.labels.zip ds.chars)).map (fun e => e.1))).map
        (fun ws => (m.forward (padSentences wordPad ws)).map
          (fun sen => sen.map argmaxIdx)) := by
    intro ds
    rw [batchesOf, List.map_map,
      chunkList_map k _ (ds.words.zip (ds.labels.zip ds.chars)).length _ le_rfl,
      List.map_map]
    rfl
  have hkey : (ds1.words.zip (ds1.labels.zip ds1.chars)).map (fun e => e.1) =
      (ds2.words.zip (ds2.labels.zip ds2.chars)).map (fun e => e.1) := by
    rw [map_fst_zip_min, map_fst_zip_min, hw, List.length_zip, List.length_zip,
      hl, hc]
  rw [decodeRows, decodeRows]
  rw [predictLoop_rows, predictLoop_rows, List.nil_append, List.nil_append]
  rw [hrows ds1, hrows ds2, hkey]

/-- Witness for C10: the dummy-label dataset of `predict` and a dataset
with different labels and characters for the same words decode
identically. -/
theorem predict_ignores_labels_and_chars_witness :
    decodeRows sampleModel (fun _ => "O") [["a", "b"]]
      (batchesOf 0 0 0 2
        { words := [[0, 1]], labels := [[0, 0]], chars := [[[0], [0]]] }) =
    decodeRows sampleModel (fun _ => "O") [["a", "b"]]
      (batchesOf 0 0 0 2
        { words := [[0, 1]], labels := [[1, 1]], chars := [[[2, 3], [4]]] }) :=
  predict_ignores_labels_and_chars sampleModel (fun _ => "O") [["a", "b"]]
    0 0 0 2
    { words := [[0, 1]], labels := [[0, 0]], chars := [[[0], [0]]] }
    { words := [[0, 1]], labels := [[1, 1]], chars := [[[2, 3], [4]]] }
    rfl rfl rfl

/-! ## Padding exclusion: masked loss and evaluation -/

/-- `torch.nn.CrossEntropyLoss(ignore_index = pad)` as `train` uses it:
the mean of the per-position loss over the positions whose target label is
not the padding id.  The per-position loss term `f` is kept abstract since
the masking behaviour is independent of it. -/
def maskedLoss (f : List ℚ → Nat → ℚ) (ignoreIdx : Nat)
    (scores : List (List ℚ)) (targets : List Nat) : ℚ :=
  let kept := (scores.zip targets).filter (fun p => !(decide (p.2 = ignoreIdx)))
  (kept.map (fun p => f p.1 p.2)).sum / (kept.length : ℚ)

/-- The non-padding positions of a (score, target) position list. -/
def dropPadded (ignoreIdx : Nat) (scores : List (List ℚ)) (targets : List Nat) :
    List (List ℚ) × List Nat :=
  let kept := (scores.zip targets).filter (fun p => !(decide (p.2 = ignoreIdx)))
  (kept.map (fun p => p.1), kept.map (fun p => p.2))

/-- Modelled from the spec: the per-sentence step of `ner_util.evaluate_iob`
(implementation not in the repository): only the positions whose gold label
id is not the padding id are decoded and evaluated. -/
def evalRow (labelPad : Nat) (itosB : Nat → BioLabel) (t : String)
    (predRow goldRow : List Nat) : Counts :=
  let kept := (predRow.zip goldRow).filter (fun p => !(decide (p.2 = labelPad)))
  evalChunks t (kept.map (fun p => itosB p.1)) (kept.map (fun p => itosB p.2))

/-- Filtering a zipped list of pads out of its padded extension gives the
filter of the original: the appended positions all carry the padding id. -/
theorem filter_zip_append_pad {α : Type} (pad : Nat) (xs : List α)
    (ys : List Nat) (junk : List α) (k : Nat)
    (hlen : xs.length = ys.length) (_hjunk : junk.length = k) :
    ((xs ++ junk).zip (ys ++ List.replicate k pad)).filter
        (fun p => !(decide (p.2 = pad))) =
      (xs.zip ys).filter (fun p => !(decide (p.2 = pad))) := by
  rw [List.zip_append hlen, List.filter_append]
  have hnil : ((junk.zip (List.replicate k pad)).filter
      (fun p => !(decide (p.2 = pad)))) = [] := by
    rw [List.filter_eq_nil_iff]
    intro p hp
    have hsnd : p.2 ∈ List.replicate k pad := (List.of_mem_zip hp).2
    have : p.2 = pad := List.eq_of_mem_replicate hsnd
    simp [this]
  rw [hnil, List.append_nil]

/-- C2: positions holding the padding label id contribute nothing to the
cross-entropy loss of `SequenceLabeler.train` — the masked loss over any
batch equals the loss over the same batch with the padded positions
removed — and padded positions never enter the accumulated evaluation
counts: evaluating rows extended by padding (gold padded with the padding
id, predictions at those positions arbitrary) yields exactly the counts of
the unpadded rows. -/
theorem padding_excluded_from_loss_and_eval
    (f : List ℚ → Nat → ℚ) (pad : Nat) (scores : List (List ℚ))
    (targets : List Nat) (itosB : Nat → BioLabel) (t : String)
    (predRow goldRow junk : List Nat) (k : Nat)
    (hlen : predRow.length = goldRow.length) (hjunk : junk.length = k) :
    maskedLoss f pad scores targets =
      maskedLoss f pad (dropPadded pad scores targets).1
        (dropPadded pad scores targets).2 ∧
    evalRow pad itosB t (predRow ++ junk) (goldRow ++ List.replicate k pad) =
      evalRow pad itosB t predRow goldRow := by
  constructor
  · rw [maskedLoss, maskedLoss, dropPadded]
    dsimp only
    rw [List.zip_map', List.map_id', List.filter_filter]
    simp only [Bool.and_self]
  · rw [evalRow, evalRow,
      filter_zip_append_pad pad predRow goldRow junk k hlen hjunk]

/-- Witness for C2 on a concrete padded batch: one real position and one
padded position. -/
theorem padding_excluded_witness :
    maskedLoss (fun _ y => (y : ℚ)) 9 [[1], [2]] [1, 9] =
      maskedLoss (fun _ y => (y : ℚ)) 9
        (dropPadded 9 [[1], [2]] [1, 9]).1 (dropPadded 9 [[1], [2]] [1, 9]).2 ∧
    evalRow 9 (fun i => if i = 1 then BioLabel.B "PER" else BioLabel.O) "PER"
        ([1] ++ [0]) ([1] ++ List.replicate 1 9) =
      evalRow 9 (fun i => if i = 1 then BioLabel.B "PER" else BioLabel.O) "PER"
        [1] [1] :=
  padding_excluded_from_loss_and_eval (fun _ y => (y : ℚ)) 9 [[1], [2]] [1, 9]
    (fun i => if i = 1 then BioLabel.B "PER" else BioLabel.O) "PER"
    [1] [1] [0] 1 rfl rfl

/-! ## The training loop -/

/-- Pseudo-random generator state, modelling the seeded torch/python RNG:
a 32-bit linear congruential generator. -/
def lcgNext (s : Nat) : Nat := (s * 1664525 + 1013904223) % 4294967296

/-- `torch.manual_seed(p.random_seed)` / `random.seed(p.random_seed)`:
reset the global generator to a state determined by the seed alone,
regardless of its previous state. -/
def seedGen (seed : Nat) : Nat := seed % 4294967296

/-- Remove the element at index `i`. -/
def pickAt {α : Type} (l : List α) (i : Nat) : List α :=
  l.take i ++ l.drop (i + 1)

/-- Fisher-Yates-style shuffle driven by the generator (the reshuffling a
`DataLoader` with `shuffle=True` performs each epoch): repeatedly draw an
index, move that element to the front, and return the shuffled list with
the advanced generator.  `fuel` bounds the recursion depth; it never runs
out when it starts at the list's length. -/
def shuffleAux {α : Type} : Nat → Nat → List α → List α × Nat
  | _, g, [] => ([], g)
  | 0, g, l => (l, g)
  | fuel + 1, g, a :: rest =>
      let g2 := lcgNext g
      let i := g2 % (rest.length + 1)
      let next := shuffleAux fuel g2 (pickAt (a :: rest) i)
      ((a :: rest).getD i a :: next.1, next.2)

/-- Shuffle a list, returning it with the advanced generator. -/
def shuffle {α : Type} (g : Nat) (l : List α) : List α × Nat :=
  shuffleAux l.length g l

/-- Removing an in-range element shortens a list by one. -/
theorem pickAt_length {α : Type} (a : α) (rest : List α) (i : Nat)
    (h : i < rest.length + 1) :
    (pickAt (a :: rest) i).length = rest.length := by
  simp only [pickAt, List.length_append, List.length_take, List.length_drop,
    List.length_cons]
  omega

/-- Shuffling preserves the number of examples. -/
theorem shuffleAux_length {α : Type} (fuel : Nat) :
    ∀ (g : Nat) (l : List α), l.length ≤ fuel →
      (shuffleAux fuel g l).1.length = l.length := by
  induction fuel with
  | zero =>
    intro g l hlen
    have : l = [] := List.length_eq_zero.mp (Nat.le_zero.mp hlen)
    subst this
    rfl
  | succ fuel ih =>
    intro g l hlen
    cases l with
    | nil => rfl
    | cons a rest =>
      have hi : lcgNext g % (rest.length + 1) < rest.length + 1 :=
        Nat.mod_lt _ (Nat.succ_pos rest.length)
      have hpick := pickAt_length a rest (lcgNext g % (rest.length + 1)) hi
      have hle : (pickAt (a :: rest) (lcgNext g % (rest.length + 1))).length ≤ fuel := by
        rw [hpick]
        simpa [List.length_cons, Nat.succ_le_succ_iff] using hlen
      simp only [shuffleAux, List.length_cons]
      rw [ih _ _ hle, hpick]

/-- Shuffling preserves the number of examples. -/
theorem shuffle_length {α : Type} (g : Nat) (l : List α) :
    (shuffle g l).1.length = l.length :=
  shuffleAux_length l.length g l le_rfl

/-- Lists of equal length split into equally many minibatches. -/
theorem chunkList_length_congr {α β : Type} (k : Nat) (n : Nat) :
    ∀ (l1 : List α) (l2 : List β), l1.length ≤ n → l1.length = l2.length →
      (chunkList k l1).length = (chunkList k l2).length := by
  induction n with
  | zero =>
    intro l1 l2 hlen heq
    have h1 : l1 = [] := List.length_eq_zero.mp (Nat.le_zero.mp hlen)
    subst h1
    have h2 : l2 = [] := List.length_eq_zero.mp heq.symm
    subst h2
    simp [chunkList]
  | succ n ih =>
    intro l1 l2 hlen heq
    cases l1 with
    | nil =>
      have h2 : l2 = [] := List.length_eq_zero.mp (by simpa using heq.symm)
      subst h2
      simp [chunkList]
    | cons a r1 =>
      cases l2 with
      | nil => simp at heq
      | cons b r2 =>
        simp only [chunkList, List.length_cons]
        have hr : r1.length = r2.length := by
          simpa [List.length_cons] using heq
        have hr1n : r1.length ≤ n := by
          simpa [List.length_cons, Nat.succ_le_succ_iff] using hlen
        have hd1 : (r1.drop (k - 1)).length ≤ n := by
          simp only [List.length_drop]
          omega
        have hd : (r1.drop (k - 1)).length = (r2.drop (k - 1)).length := by
          simp [List.length_drop, hr]
        rw [ih _ _ hd1 hd]

/-- Draw one pseudo-random rational in [-1, 1] and advance the generator
(one parameter-initialization draw). -/
def drawQ (g : Nat) : ℚ × Nat :=
  let g2 := lcgNext g
  (((g2 % 2001 : Nat) : ℚ) / 1000 - 1, g2)

/-- Draw a vector of `n` pseudo-random rationals. -/
def drawVec : Nat → Nat → List ℚ × Nat
  | 0, g => ([], g)
  | n + 1, g =>
      let q := drawQ g
      let rest := drawVec n q.2
      (q.1 :: rest.1, rest.2)

/-- Draw an `r × c` matrix of pseudo-random rationals. -/
def drawMat : Nat → Nat → Nat → List (List ℚ) × Nat
  | 0, _, g => ([], g)
  | r + 1, c, g =>
      let row := drawVec c g
      let rest := drawMat r c row.2
      (row.1 :: rest.1, rest.2)

/-- Build the model as `train` does: an embedding table of shape
(vocab_size, emb_dim) from `make_embedding_layer` and the linear output
layer of shape (n_labels, emb_dim) with its bias, every parameter drawn
from the (seeded) generator. -/
def initModel (vocabSize embDim nLabels g : Nat) : SimpleSequenceModel × Nat :=
  let embW := drawMat vocabSize embDim g
  let linW := drawMat nLabels embDim embW.2
  let linB := drawVec nLabels linW.2
  ({ word_embedding := { weight := embW.1 }
     top_layer := { weight := linW.1, bias := linB.1 } }, linB.2)

/-- The hyperparameters of `SeqLabelerParameters` that the loop structure
reads (the data files are replaced by the already-read datasets). -/
structure SeqLabelerParameters where
  random_seed : Nat
  n_epochs : Nat
  batch_size : Nat
  word_emb_dim : Nat

/-- The mutable state of a training run: the model parameters, the global
generator, the number of `optimizer.step()` calls performed so far, and
the per-epoch history of training losses and validation F1 scores. -/
structure TrainState where
  model : SimpleSequenceModel
  gen : Nat
  steps : Nat
  history_train_loss : List ℚ
  history_val_f1 : List ℚ

/-- One training minibatch: compute the scores, the masked cross-entropy
loss over the flattened batch, apply one optimizer update (`upd`, the
Adam step kept abstract) and count the `optimizer.step()` call.  The
accumulator is (model, (step count, loss sum)). -/
def trainBatchStep (f : List ℚ → Nat → ℚ) (labelPad : Nat)
    (upd : SimpleSequenceModel → CollatedBatch → SimpleSequenceModel)
    (acc : SimpleSequenceModel × Nat × ℚ) (b : CollatedBatch) :
    SimpleSequenceModel × Nat × ℚ :=
  let scores := acc.1.forward b.Xwords
  let loss := maskedLoss f labelPad scores.flatten b.Ybatch.flatten
  (upd acc.1 b, (acc.2.1 + 1, acc.2.2 + loss))

/-- Componentwise sum of evaluation counts. -/
def addCounts (c1 c2 : Counts) : Counts :=
  { tp := c1.tp + c2.tp, fp := c1.fp + c2.fp, fn := c1.fn + c2.fn }

/-- One validation minibatch (inside `torch.no_grad()`): compute the
scores with the current model, take the per-position argmaxes, and
accumulate the chunk-level counts; the model is carried through
unchanged — no update step exists in this phase. -/
def valBatchStep (itosB : Nat → BioLabel) (labelPad : Nat) (t : String)
    (acc : SimpleSequenceModel × Counts) (b : CollatedBatch) :
    SimpleSequenceModel × Counts :=
  let predicted := (acc.1.forward b.Xwords).map (fun sen => sen.map argmaxIdx)
  let batchCounts := ((predicted.zip b.Ybatch).map
      (fun p => evalRow labelPad itosB t p.1 p.2)).foldl addCounts ⟨0, 0, 0⟩
  (acc.1, addCounts acc.2 batchCounts)

/-- One epoch of `SequenceLabeler.train`: reshuffle the training examples,
fold the training batches (one optimizer update each, accumulating the
loss sum), then fold the validation batches (no updates, accumulating
counts), and append the epoch mean training loss and validation F1 to the
history. -/
def runEpoch (p : SeqLabelerParameters) (f : List ℚ → Nat → ℚ)
    (upd : SimpleSequenceModel → CollatedBatch → SimpleSequenceModel)
    (itosB : Nat → BioLabel) (t : String) (wordPad labelPad charPad : Nat)
    (trainDs valDs : SequenceDataset) (st : TrainState) : TrainState :=
  let sh := shuffle st.gen (trainDs.words.zip (trainDs.labels.zip trainDs.chars))
  let trainBatches := (chunkList p.batch_size sh.1).map (collate wordPad labelPad charPad)
  let tr := trainBatches.foldl (trainBatchStep f labelPad upd) (st.model, (st.steps, 0))
  let valBatches := batchesOf wordPad labelPad charPad p.batch_size valDs
  let va := valBatches.foldl (valBatchStep itosB labelPad t) (tr.1, ⟨0, 0, 0⟩)
  { model := va.1
    gen := sh.2
    steps := tr.2.1
    history_train_loss :=
      st.history_train_loss ++ [tr.2.2 / (trainBatches.length : ℚ)]
    history_val_f1 := st.history_val_f1 ++ [(prf va.2).2.2] }

/-- Run `n` epochs. -/
def iterEpochs (e : TrainState → TrainState) : Nat → TrainState → TrainState
  | 0, st => st
  | n + 1, st => iterEpochs e n (e st)

/-- `SequenceLabeler.train`: seed the global generator from the
configuration (overwriting whatever state `g0` it carried), build the
model with parameters drawn from the seeded generator, and run
`p.n_epochs` epochs of training followed by validation. -/
def SequenceLabeler.train (p : SeqLabelerParameters)
    (vocabSize nLabels : Nat) (f : List ℚ → Nat → ℚ)
    (upd : SimpleSequenceModel → CollatedBatch → SimpleSequenceModel)
    (itosB : Nat → BioLabel) (t : String) (wordPad labelPad charPad : Nat)
    (trainDs valDs : SequenceDataset) (_g0 : Nat) : TrainState :=
  let g := seedGen p.random_seed
  let ini := initModel vocabSize p.word_emb_dim nLabels g
  iterEpochs (runEpoch p f upd itosB t wordPad labelPad charPad trainDs valDs)
    p.n_epochs
    { model := ini.1, gen := ini.2, steps := 0
      history_train_loss := [], history_val_f1 := [] }

/-- The validation fold never changes the model: only the counts move. -/
theorem valFold_model (itosB : Nat → BioLabel) (labelPad : Nat) (t : String)
    (batches : List CollatedBatch) :
    ∀ (acc : SimpleSequenceModel × Counts),
      (batches.foldl (valBatchStep itosB labelPad t) acc).1 = acc.1 := by
  induction batches with
  | nil => intro acc; rfl
  | cons b bs ih =>
    intro acc
    rw [List.foldl_cons, ih]
    rfl

/-- Each training minibatch performs exactly one optimizer step: the step
counter grows by the number of batches folded. -/
theorem trainFold_steps (f : List ℚ → Nat → ℚ) (labelPad : Nat)
    (upd : SimpleSequenceModel → CollatedBatch → SimpleSequenceModel)
    (batches : List CollatedBatch) :
    ∀ (m : SimpleSequenceModel) (s : Nat) (ls : ℚ),
      (batches.foldl (trainBatchStep f labelPad upd) (m, (s, ls))).2.1 =
        s + batches.length := by
  induction batches with
  | nil => intro m s ls; simp
  | cons b bs ih =>
    intro m s ls
    rw [List.foldl_cons]
    rw [show trainBatchStep f labelPad upd (m, (s, ls)) b =
      (upd m b, (s + 1, ls + maskedLoss f labelPad
        ((m.forward b.Xwords).flatten) b.Ybatch.flatten)) from rfl]
    rw [ih]
    rw [List.length_cons]
    omega

/-- One epoch: one optimizer step per training minibatch (the shuffled
batch count equals the unshuffled one) and one new entry in each history. -/
theorem runEpoch_counts (p : SeqLabelerParameters) (f : List ℚ → Nat → ℚ)
    (upd : SimpleSequenceModel → CollatedBatch → SimpleSequenceModel)
    (itosB : Nat → BioLabel) (t : String) (wordPad labelPad charPad : Nat)
    (trainDs valDs : SequenceDataset) (st : TrainState) :
    (runEpoch p f upd itosB t wordPad labelPad charPad trainDs valDs st).steps =
      st.steps + (chunkList p.batch_size
        (trainDs.words.zip (trainDs.labels.zip trainDs.chars))).length ∧
    (runEpoch p f upd itosB t wordPad labelPad charPad trainDs valDs
        st).history_train_loss.length = st.history_train_loss.length + 1 ∧
    (runEpoch p f upd itosB t wordPad labelPad charPad trainDs valDs
        st).history_val_f1.length = st.history_val_f1.length + 1 := by
  refine ⟨?_, ?_, ?_⟩
  · rw [runEpoch]
    dsimp only
    rw [trainFold_steps]
    congr 1
    rw [List.length_map]
    exact chunkList_length_congr p.batch_size
      (shuffle st.gen (trainDs.words.zip (trainDs.labels.zip trainDs.chars))).1.length
      _ _ le_rfl (shuffle_length _ _)
  · rw [runEpoch]
    dsimp only
    rw [List.length_append, List.length_singleton]
  · rw [runEpoch]
    dsimp only
    rw [List.length_append, List.length_singleton]

/-- Iterating an epoch that adds `B` steps and one history entry `n` times
adds `n * B` steps and `n` entries. -/
theorem iterEpochs_counts (e : TrainState → TrainState) (B : Nat)
    (he : ∀ st, (e st).steps = st.steps + B ∧
      (e st).history_train_loss.length = st.history_train_loss.length + 1 ∧
      (e st).history_val_f1.length = st.history_val_f1.length + 1) :
    ∀ (n : Nat) (st : TrainState),
      (iterEpochs e n st).steps = st.steps + n * B ∧
      (iterEpochs e n st).history_train_loss.length =
        st.history_train_loss.length + n ∧
      (iterEpochs e n st).history_val_f1.length =
        st.history_val_f1.length + n := by
  intro n
  induction n with
  | zero => intro st; simp [iterEpochs]
  | succ n ih =>
    intro st
    rw [iterEpochs]
    obtain ⟨h1, h2, h3⟩ := ih (e st)
    obtain ⟨g1, g2, g3⟩ := he st
    refine ⟨?_, ?_, ?_⟩
    · rw [h1, g1]
      ring
    · rw [h2, g2]
      omega
    · rw [h3, g3]
      omega

/-- C5: neither the validation phase of `SequenceLabeler.train` nor
`SequenceLabeler.predict` mutates any model parameter: the validation fold
of an epoch returns exactly the model it was given (it only accumulates
counts), and the prediction batch loop returns exactly the model it was
given (it only accumulates predicted rows); no update step occurs in
either. -/
theorem validation_and_predict_preserve_parameters
    (itosB : Nat → BioLabel) (labelPad : Nat) (t : String)
    (valBatches predBatches : List CollatedBatch)
    (m : SimpleSequenceModel) (c : Counts) (rows : List (List Nat)) :
    (valBatches.foldl (valBatchStep itosB labelPad t) (m, c)).1 = m ∧
    (predictLoop (m, rows) predBatches).1 = m :=
  ⟨valFold_model itosB labelPad t valBatches (m, c),
   predictLoop_model predBatches (m, rows)⟩

/-- C7: training is reproducible: with a fixed configuration and fixed
data, the result of `train` does not depend on the ambient generator state,
because `train` reseeds the generator from `p.random_seed` before any
random draw — the parameter initialization and every epoch's shuffle read
the reseeded, threaded generator. -/
theorem train_reproducible (p : SeqLabelerParameters)
    (vocabSize nLabels : Nat) (f : List ℚ → Nat → ℚ)
    (upd : SimpleSequenceModel → CollatedBatch → SimpleSequenceModel)
    (itosB : Nat → BioLabel) (t : String) (wordPad labelPad charPad : Nat)
    (trainDs valDs : SequenceDataset) (g1 g2 : Nat) :
    SequenceLabeler.train p vocabSize nLabels f upd itosB t
        wordPad labelPad charPad trainDs valDs g1 =
      SequenceLabeler.train p vocabSize nLabels f upd itosB t
        wordPad labelPad charPad trainDs valDs g2 := rfl

/-- C8: `train` executes exactly `p.n_epochs` epochs — the training-loss
history and the validation-F1 history each gain one entry per epoch — and
performs exactly one optimizer update per training minibatch per epoch:
the total number of `optimizer.step()` calls is `p.n_epochs` times the
number of training batches (validation adds none). -/
theorem train_epoch_structure (p : SeqLabelerParameters)
    (vocabSize nLabels : Nat) (f : List ℚ → Nat → ℚ)
    (upd : SimpleSequenceModel → CollatedBatch → SimpleSequenceModel)
    (itosB : Nat → BioLabel) (t : String) (wordPad labelPad charPad : Nat)
    (trainDs valDs : SequenceDataset) (g0 : Nat) :
    (SequenceLabeler.train p vocabSize nLabels f upd itosB t
        wordPad labelPad charPad trainDs valDs g0).history_train_loss.length =
      p.n_epochs ∧
    (SequenceLabeler.train p vocabSize nLabels f upd itosB t
        wordPad labelPad charPad trainDs valDs g0).history_val_f1.length =
      p.n_epochs ∧
    (SequenceLabeler.train p vocabSize nLabels f upd itosB t
        wordPad labelPad charPad trainDs valDs g0).steps =
      p.n_epochs * (chunkList p.batch_size
        (trainDs.words.zip (trainDs.labels.zip trainDs.chars))).length := by
  have h := iterEpochs_counts
    (runEpoch p f upd itosB t wordPad labelPad charPad trainDs valDs)
    ((chunkList p.batch_size
      (trainDs.words.zip (trainDs.labels.zip trainDs.chars))).length)
    (fun st => runEpoch_counts p f upd itosB t wordPad labelPad charPad
      trainDs valDs st)
    p.n_epochs
    { model := (initModel vocabSize p.word_emb_dim nLabels
        (seedGen p.random_seed)).1
      gen := (initModel vocabSize p.word_emb_dim nLabels
        (seedGen p.random_seed)).2
      steps := 0
      history_train_loss := []
      history_val_f1 := [] }
  obtain ⟨h1, h2, h3⟩ := h
  rw [SequenceLabeler.train]
  refine ⟨?_, ?_, ?_⟩
  · rw [h2]
    simp
  · rw [h3]
    simp
  · rw [h1]
    simp

end NER
